import Mathlib

/-!
Verification of the `codec` binary serialization library (github.com/oy3o/codec).

This file gives a shallow embedding of the parts of the library that the
properties below are about, and proves (or refutes) each property against
that embedding:

* the fixed-record codec `Fixed[T]` (fixed.go): `Size`, `MarshalBinary`,
  `UnmarshalBinary`;
* the trailing-zero validation `CheckTrailingNotZeros` (helpers file);
* the typed `Reader` (error latching, `readFull`, primitive reads) and the
  typed `Writer` (error latching, nesting depth, flush discipline);
* the constructor dispatch of `NewReaderSize`;
* the `ChainedReader` / `ChainedReadSeeker` (bounded payload + trailer
  callback);
* the `list` codec (`Size`, `WriteTo`, `ReadFrom` in both decode modes).

Bytes are modelled as natural numbers (values `< 256` wherever the code
guarantees it), byte streams as `List Nat`, machine integers as `Nat`/`Int`,
and fallible operations return `Except Err _` or carry an `Option Err`.
-/

namespace Codec

/-- The library's error taxonomy (errors.go), together with the `io` package
errors the code returns (`io.EOF`, `io.ErrUnexpectedEOF`, `io.ErrShortWrite`,
`io.ErrShortBuffer`); `nilSource` models `ErrNilIO`.  `trailingTooLarge` and `trailingNonZero` are the two
wrapped forms of `ErrTrailingData` produced by `CheckTrailingNotZeros`. -/
inductive Err where
  | nilSource
  | sizeTooSmall
  | alreadyBuffered
  | writeToNil
  | readToNil
  | invalidSeek
  | unsupportedNegativeSeek
  | invalidWhence
  | invalidWrite
  | invalidRead
  | discardNegative
  | trailingTooLarge
  | trailingNonZero (offset : Nat) (b : Nat)
  | truncatedData
  | shortBuffer
  | shortWrite
  | eof
  | unexpectedEOF
  deriving DecidableEq, Repr

/-! ## Big-endian bytes

`encoding/binary` with the library default order `Order = BE` (helpers file)
writes a `w`-byte unsigned field most-significant byte first, and
`order.Uint16/32/64` recombine bytes the same way. -/

/-- The `w` big-endian bytes of `v` (the byte layout `binary.Write` emits for
a fixed-width unsigned field under the library default big-endian order). -/
def beBytes : Nat → Nat → List Nat
  | 0, _ => []
  | w + 1, v => beBytes w (v / 256) ++ [v % 256]

/-- Recombination of big-endian bytes into a value (`order.Uint16/32/64`). -/
def beVal (bs : List Nat) : Nat :=
  bs.foldl (fun acc b => acc * 256 + b) 0

theorem beBytes_length (w v : Nat) : (beBytes w v).length = w := by
  induction w generalizing v with
  | zero => rfl
  | succ w ih => simp [beBytes, ih]

theorem beVal_append_singleton (xs : List Nat) (b : Nat) :
    beVal (xs ++ [b]) = beVal xs * 256 + b := by
  simp [beVal, List.foldl_append]

theorem beVal_beBytes {w v : Nat} (h : v < 256 ^ w) :
    beVal (beBytes w v) = v := by
  induction w generalizing v with
  | zero =>
    interval_cases v
    rfl
  | succ w ih =>
    have hdiv : v / 256 < 256 ^ w := by
      have : v < 256 ^ w * 256 := by
        calc v < 256 ^ (w + 1) := h
        _ = 256 ^ w * 256 := by ring
      exact (Nat.div_lt_iff_lt_mul (by norm_num)).2 this
    calc beVal (beBytes (w + 1) v)
        = beVal (beBytes w (v / 256)) * 256 + v % 256 := by
          simp [beBytes, beVal_append_singleton]
      _ = v / 256 * 256 + v % 256 := by rw [ih hdiv]
      _ = v := by rw [Nat.mul_comm]; exact Nat.div_add_mod v 256

/-! ## Fixed record codec (fixed.go)

A fixed-layout record type is a sequence of fixed-width unsigned fields (a
fixed-length byte array is the special case of width-1 fields).  A value of
the record assigns each field a value; `binary.Size` is the sum of the field
widths. -/

/-- One fixed-width field of a record value: its byte width and its value.
A Go value of a `uintN` field always satisfies `val < 256 ^ width`. -/
structure Field where
  width : Nat
  val : Nat
  deriving DecidableEq, Repr

/-- A record value is well formed when every field value fits its width
(automatic for Go's fixed-width unsigned types). -/
def recWF (r : List Field) : Prop := ∀ f ∈ r, f.val < 256 ^ f.width

instance (r : List Field) : Decidable (recWF r) := by
  unfold recWF; infer_instance

/-- The field widths of a record (determined by the record's Go type). -/
def recWidths (r : List Field) : List Nat := r.map Field.width

/-- `binary.Size` of the record type: the sum of the field widths. -/
def recSize (r : List Field) : Nat := (r.map Field.width).sum

/-- `binary.Write`/`binary.Encode` of a record under the default big-endian
order: the concatenation of the big-endian bytes of each field. -/
def recEncode (r : List Field) : List Nat :=
  (r.map fun f => beBytes f.width f.val).flatten

theorem recEncode_length (r : List Field) :
    (recEncode r).length = recSize r := by
  induction r with
  | nil => rfl
  | cons f r ih =>
    simp [recEncode, recSize, beBytes_length] at *
    simp [ih]

/-- The field-decoding loop of `binary.Read`: split the first `sum widths`
bytes of the stream by field widths and recombine each group big-endian. -/
def decodeFields : List Nat → List Nat → List Field
  | [], _ => []
  | w :: ws, bs => ⟨w, beVal (bs.take w)⟩ :: decodeFields ws (bs.drop w)

/-- `binary.Read` of a record (widths `ws`) from a byte stream: it demands
`ws.sum` bytes via `io.ReadFull`, so an empty stream (with a positive size)
yields `io.EOF` and a partial stream yields `io.ErrUnexpectedEOF`; otherwise
it consumes exactly `ws.sum` bytes and leaves the rest. -/
def recDecode (ws : List Nat) (data : List Nat) :
    Except Err (List Field × List Nat) :=
  if data.length < ws.sum then
    if data.length = 0 then .error .eof else .error .unexpectedEOF
  else
    .ok (decodeFields ws (data.take ws.sum), data.drop ws.sum)

/-- `MAX_PADDING` (helpers file): the maximum number of trailing bytes
`CheckTrailingNotZeros` tolerates. -/
def MAX_PADDING : Nat := 1024

/-- First non-zero byte of a list, with its offset (the loop of
`CheckTrailingNotZeros` that reports offset and byte value). -/
def findNonZero : List Nat → Option (Nat × Nat)
  | [] => none
  | b :: bs =>
    if b ≠ 0 then some (0, b)
    else (findNonZero bs).map fun p => (p.1 + 1, p.2)

/-- `CheckTrailingNotZeros` applied to a `BytesReader` whose remaining bytes
are `rest`: the fast path succeeds when nothing remains (`Available() == 0`);
otherwise `io.ReadAll` over a `LimitedReader` collects up to
`MAX_PADDING + 1` bytes, more than `MAX_PADDING` collected bytes is
`ErrTrailingData` (too large), and a non-zero collected byte is
`ErrTrailingData` with its offset and value. -/
def checkTrailingNotZeros (rest : List Nat) : Except Err Unit :=
  if rest.length = 0 then .ok ()
  else
    let trailingData := rest.take (MAX_PADDING + 1)
    if trailingData.length > MAX_PADDING then .error .trailingTooLarge
    else
      match findNonZero trailingData with
      | some p => .error (.trailingNonZero p.1 p.2)
      | none => .ok ()

/-- `Fixed.MarshalBinary` (fixed.go): `binary.Write` into a `BytesWriter`
whose buffer has length `Size()`.  The writer truncates and reports
`io.ErrShortWrite` if the encoding were longer than `Size()` (it never is:
`recEncode_length`). -/
def fixedMarshalBinary (r : List Field) : Except Err (List Nat) :=
  if recSize r < (recEncode r).length then .error .shortWrite
  else .ok (recEncode r)

/-- `Fixed.UnmarshalBinary` (fixed.go): `binary.Read` from a `BytesReader`
over `data`, then `CheckTrailingNotZeros` on the reader's remaining bytes. -/
def fixedUnmarshalBinary (ws : List Nat) (data : List Nat) :
    Except Err (List Field) :=
  match recDecode ws data with
  | .error e => .error e
  | .ok (r, rest) =>
    match checkTrailingNotZeros rest with
    | .error e => .error e
    | .ok _ => .ok r

/-- Whether a decode result failed with (a wrapped form of)
`ErrTrailingData`. -/
def isTrailingErr : Except Err (List Field) → Bool
  | .error .trailingTooLarge => true
  | .error (.trailingNonZero _ _) => true
  | _ => false

theorem take_append_eq_left {α : Type} (l1 l2 : List α) (n : Nat)
    (h : l1.length = n) : (l1 ++ l2).take n = l1 := by
  subst h; exact List.take_left l1 l2

theorem drop_append_eq_right {α : Type} (l1 l2 : List α) (n : Nat)
    (h : l1.length = n) : (l1 ++ l2).drop n = l2 := by
  subst h; exact List.drop_left l1 l2

theorem decodeFields_encode_append (r : List Field) (t : List Nat)
    (h : recWF r) : decodeFields (recWidths r) (recEncode r ++ t) = r := by
  induction r with
  | nil => rfl
  | cons f r ih =>
    have hlen : (beBytes f.width f.val).length = f.width := beBytes_length _ _
    have henc : recEncode (f :: r) ++ t
        = beBytes f.width f.val ++ (recEncode r ++ t) := by
      simp [recEncode]
    have hval : f.val < 256 ^ f.width := h f (by simp)
    have htail : recWF r := fun g hg => h g (by simp [hg])
    calc decodeFields (recWidths (f :: r)) (recEncode (f :: r) ++ t)
        = ⟨f.width, beVal ((beBytes f.width f.val ++ (recEncode r ++ t)).take f.width)⟩
            :: decodeFields (recWidths r)
              ((beBytes f.width f.val ++ (recEncode r ++ t)).drop f.width) := by
          rw [henc]; rfl
      _ = f :: r := by
          rw [take_append_eq_left _ _ _ hlen, drop_append_eq_right _ _ _ hlen,
            beVal_beBytes hval, ih htail]

/-- `recDecode` on a well-formed encoding followed by arbitrary bytes
recovers the record and leaves exactly the trailing bytes. -/
theorem recDecode_encode_append (r : List Field) (t : List Nat)
    (h : recWF r) :
    recDecode (recWidths r) (recEncode r ++ t) = .ok (r, t) := by
  have hsum : (recWidths r).sum = recSize r := rfl
  have hlen : (recEncode r).length = (recWidths r).sum := by
    rw [hsum]; exact recEncode_length r
  have hge : ¬ (recEncode r ++ t).length < (recWidths r).sum := by
    rw [List.length_append, hlen]; omega
  have hfields : decodeFields (recWidths r) (recEncode r) = r := by
    have := decodeFields_encode_append r [] h
    simpa using this
  rw [recDecode, if_neg hge, take_append_eq_left _ _ _ hlen,
    drop_append_eq_right _ _ _ hlen, hfields]

theorem fixedUnmarshalBinary_encode_append (r : List Field) (t : List Nat)
    (h : recWF r) :
    fixedUnmarshalBinary (recWidths r) (recEncode r ++ t)
      = match checkTrailingNotZeros t with
        | .error e => .error e
        | .ok _ => .ok r := by
  rw [fixedUnmarshalBinary, recDecode_encode_append r t h]

theorem findNonZero_eq_none {l : List Nat} :
    findNonZero l = none ↔ ∀ b ∈ l, b = 0 := by
  induction l with
  | nil => simp [findNonZero]
  | cons b bs ih =>
    by_cases hb : b = 0
    · subst hb
      simp [findNonZero, Option.map_eq_none', ih]
    · simp [findNonZero, hb]

/-- **C1 (round-trip).**  For every fixed-layout record type and every value
of it, `Fixed.UnmarshalBinary` applied to the bytes produced by
`Fixed.MarshalBinary` yields the value again, and the encoded slice has
length `Size()`. -/
theorem fixed_roundtrip (r : List Field) (h : recWF r) :
    fixedMarshalBinary r = .ok (recEncode r)
    ∧ (recEncode r).length = recSize r
    ∧ fixedUnmarshalBinary (recWidths r) (recEncode r) = .ok r := by
  refine ⟨?_, recEncode_length r, ?_⟩
  · rw [fixedMarshalBinary, if_neg (by simp [recEncode_length])]
  · have := fixedUnmarshalBinary_encode_append r [] h
    simpa [checkTrailingNotZeros] using this

/-- Witness for `fixed_roundtrip` at the record of scenario S1
(`{id: u32 = 0xDEADBEEF, flags: u16 = 0x0102, pad: [2]byte}`). -/
theorem fixed_roundtrip_witness :
    recWF [⟨4, 0xDEADBEEF⟩, ⟨2, 0x0102⟩, ⟨1, 0⟩, ⟨1, 0⟩]
    ∧ (fixedMarshalBinary [⟨4, 0xDEADBEEF⟩, ⟨2, 0x0102⟩, ⟨1, 0⟩, ⟨1, 0⟩]
        = .ok (recEncode [⟨4, 0xDEADBEEF⟩, ⟨2, 0x0102⟩, ⟨1, 0⟩, ⟨1, 0⟩])
      ∧ (recEncode [⟨4, 0xDEADBEEF⟩, ⟨2, 0x0102⟩, ⟨1, 0⟩, ⟨1, 0⟩]).length
          = recSize [⟨4, 0xDEADBEEF⟩, ⟨2, 0x0102⟩, ⟨1, 0⟩, ⟨1, 0⟩]
      ∧ fixedUnmarshalBinary
          (recWidths [⟨4, 0xDEADBEEF⟩, ⟨2, 0x0102⟩, ⟨1, 0⟩, ⟨1, 0⟩])
          (recEncode [⟨4, 0xDEADBEEF⟩, ⟨2, 0x0102⟩, ⟨1, 0⟩, ⟨1, 0⟩])
          = .ok [⟨4, 0xDEADBEEF⟩, ⟨2, 0x0102⟩, ⟨1, 0⟩, ⟨1, 0⟩]) :=
  ⟨by decide, fixed_roundtrip _ (by decide)⟩

/-- **C4 (trailing validation).**  `Fixed.UnmarshalBinary` on an input of
length `size()+k` succeeds for `0 ≤ k ≤ 1024` exactly when the `k` trailing
bytes are all zero, failing with `ErrTrailingData` when one is non-zero, and
for `k > 1024` it fails with `ErrTrailingData` even when all trailing bytes
are zero. -/
theorem trailing_validation (r : List Field) (t : List Nat) (h : recWF r) :
    (t.length ≤ MAX_PADDING →
      (fixedUnmarshalBinary (recWidths r) (recEncode r ++ t) = .ok r
          ↔ ∀ b ∈ t, b = 0)
      ∧ (¬ (∀ b ∈ t, b = 0) →
          isTrailingErr (fixedUnmarshalBinary (recWidths r) (recEncode r ++ t))
            = true))
    ∧ (MAX_PADDING < t.length →
        fixedUnmarshalBinary (recWidths r) (recEncode r ++ t)
          = .error .trailingTooLarge) := by
  have hmain := fixedUnmarshalBinary_encode_append r t h
  constructor
  · intro hk
    have htake : t.take (MAX_PADDING + 1) = t :=
      List.take_of_length_le (by omega)
    by_cases hz : ∀ b ∈ t, b = 0
    · have hnz : findNonZero t = none := findNonZero_eq_none.2 hz
      have hok : checkTrailingNotZeros t = .ok () := by
        by_cases h0 : t.length = 0
        · simp [checkTrailingNotZeros, h0]
        · rw [checkTrailingNotZeros, if_neg h0]
          simp only [htake]
          rw [if_neg (by omega), hnz]
      rw [hmain, hok]
      exact ⟨Iff.intro (fun _ => hz) (fun _ => rfl), fun hc => (hc hz).elim⟩
    · have h0 : t.length ≠ 0 := by
        intro h0
        exact hz (by intro b hb; simp [List.length_eq_zero.1 h0] at hb)
      rcases hfz : findNonZero t with _ | p
      · exact absurd (findNonZero_eq_none.1 hfz) hz
      · have herr : checkTrailingNotZeros t
            = .error (.trailingNonZero p.1 p.2) := by
          rw [checkTrailingNotZeros, if_neg h0]
          simp only [htake]
          rw [if_neg (by omega), hfz]
        refine ⟨?_, fun _ => ?_⟩
        · rw [hmain, herr]
          exact Iff.intro (fun hc => (Except.noConfusion hc)) (fun hc => (hz hc).elim)
        · rw [hmain, herr]
          rfl
  · intro hk
    have h0 : t.length ≠ 0 := by omega
    have hlen : (t.take (MAX_PADDING + 1)).length = MAX_PADDING + 1 := by
      rw [List.length_take]; omega
    have herr : checkTrailingNotZeros t = .error .trailingTooLarge := by
      rw [checkTrailingNotZeros, if_neg h0]
      simp only [hlen]
      rw [if_pos (by omega)]
    rw [hmain, herr]

/-- Witness for `trailing_validation` at the one-field record `⟨2, 258⟩`
with two zero trailing bytes. -/
theorem trailing_validation_witness :
    recWF [⟨2, 258⟩]
    ∧ ((([0, 0] : List Nat).length ≤ MAX_PADDING →
        (fixedUnmarshalBinary (recWidths [⟨2, 258⟩])
            (recEncode [⟨2, 258⟩] ++ [0, 0]) = .ok [⟨2, 258⟩]
          ↔ ∀ b ∈ ([0, 0] : List Nat), b = 0)
        ∧ (¬ (∀ b ∈ ([0, 0] : List Nat), b = 0) →
            isTrailingErr (fixedUnmarshalBinary (recWidths [⟨2, 258⟩])
              (recEncode [⟨2, 258⟩] ++ [0, 0])) = true))
      ∧ (MAX_PADDING < ([0, 0] : List Nat).length →
          fixedUnmarshalBinary (recWidths [⟨2, 258⟩])
            (recEncode [⟨2, 258⟩] ++ [0, 0]) = .error .trailingTooLarge)) :=
  ⟨by decide, trailing_validation [⟨2, 258⟩] [0, 0] (by decide)⟩

/-! ## Typed Reader (buffered stream adapter)

The typed `Reader` wraps an underlying byte source, counts delivered bytes
and latches the first error.  The underlying source here is byte-slice
backed (`BytesReader` / `bytes.Reader` semantics): a `Read` returns all the
requested bytes that remain, and returns `(0, io.EOF)` once no byte
remains. -/

/-- State of a typed `Reader`: the bytes not yet consumed from the
underlying source, the cumulative count `r.count`, and the latched first
error `r.err`. -/
structure RState where
  input : List Nat
  count : Nat
  err : Option Err
  deriving DecidableEq, Repr

/-- `Reader.Read`: a latched error makes the call a no-op returning that
error; otherwise one underlying read is performed, its byte count added to
`r.count`, its error latched, and `r.err` returned. -/
def readerRead (s : RState) (k : Nat) : RState × Nat × Option Err :=
  match s.err with
  | some e => (s, 0, some e)
  | none =>
    if s.input.isEmpty then
      ({ s with err := some .eof }, 0, some .eof)
    else
      let n := min k s.input.length
      ({ input := s.input.drop k, count := s.count + n, err := none }, n, none)

/-- `Reader.readFull`: a latched error short-circuits; otherwise
`io.ReadFull` is run over the reader.  When the source holds at least `n`
bytes they are returned; otherwise the code latches `io.ErrUnexpectedEOF`
for BOTH the clean case (`io.ReadFull` returned `io.EOF`: zero bytes were
available) and the partial case (`io.ErrUnexpectedEOF`), because the branch
`if err == io.EOF` overwrites `r.err` with `io.ErrUnexpectedEOF`. -/
def readerReadFull (s : RState) (n : Nat) : RState × Option (List Nat) :=
  match s.err with
  | some _ => (s, none)
  | none =>
    if n ≤ s.input.length then
      ({ input := s.input.drop n, count := s.count + n, err := none },
        some (s.input.take n))
    else
      ({ input := [], count := s.count + s.input.length,
         err := some .unexpectedEOF }, none)

/-- `Reader.ReadUint16`: `readFull(2)` then `order.Uint16` into the
destination when no error is pending.  The returned `Nat` is the value of
the caller's destination variable after the call. -/
def readUint16 (s : RState) (dest : Nat) : RState × Nat :=
  match readerReadFull s 2 with
  | (s1, some buf) => (s1, beVal buf)
  | (s1, none) => (s1, dest)

/-- `Reader.ReadUint32`: `readFull(4)` then `order.Uint32`. -/
def readUint32 (s : RState) (dest : Nat) : RState × Nat :=
  match readerReadFull s 4 with
  | (s1, some buf) => (s1, beVal buf)
  | (s1, none) => (s1, dest)

/-- `Reader.ReadUint64`: `readFull(8)` then `order.Uint64`. -/
def readUint64 (s : RState) (dest : Nat) : RState × Nat :=
  match readerReadFull s 8 with
  | (s1, some buf) => (s1, beVal buf)
  | (s1, none) => (s1, dest)

/-- `Reader.ReadUint8`: one underlying `ReadByte`; on success the byte is
stored and `count` advances, on failure the error is stored and the
destination is untouched. -/
def readUint8 (s : RState) (dest : Nat) : RState × Nat :=
  match s.err with
  | some _ => (s, dest)
  | none =>
    match s.input with
    | [] => ({ s with err := some .eof }, dest)
    | b :: rest => ({ input := rest, count := s.count + 1, err := none }, b)

/-- `Reader.ReadBool`: one underlying `ReadByte`; any non-zero byte decodes
to `true`. -/
def readBool (s : RState) (dest : Bool) : RState × Bool :=
  match s.err with
  | some _ => (s, dest)
  | none =>
    match s.input with
    | [] => ({ s with err := some .eof }, dest)
    | b :: rest =>
      ({ input := rest, count := s.count + 1, err := none }, b ≠ 0)

/-- `Reader.ReadByte`: returns the byte and the error. -/
def readerReadByte (s : RState) : RState × Nat × Option Err :=
  match s.err with
  | some e => (s, 0, some e)
  | none =>
    match s.input with
    | [] => ({ s with err := some .eof }, 0, some .eof)
    | b :: rest => ({ input := rest, count := s.count + 1, err := none }, b, none)

/-- `Reader.IsEOF`: true exactly when the latched error is `io.EOF`. -/
def readerIsEOF (s : RState) : Bool := s.err = some Err.eof

/-! ## Typed Writer (writer.go)

A typed `Writer` shares a buffered sink (`bufio.Writer` semantics) with any
writer it was constructed over.  The shared sink is modelled as the pair
(bytes sitting in the buffer, bytes that have reached the real sink); the
buffer is modelled without a mid-stream spill, which is how the nested-flush
scenario (an adequate buffer, e.g. capacity 128 in §S6 of the spec)
exercises it. -/

/-- The shared buffered sink: `buffered` is the content of the shared
`bufio` buffer, `flushed` the bytes that have reached the underlying
`io.Writer`. -/
structure WSink where
  buffered : List Nat
  flushed : List Nat
  deriving DecidableEq, Repr

/-- Per-writer state: the nesting `depth`, the cumulative `count`, and the
latched first error `err`. -/
structure WState where
  depth : Nat
  count : Nat
  err : Option Err
  deriving DecidableEq, Repr

/-- `NewWriterSize` over an existing typed `Writer` (the `case *Writer`
branch): the new writer shares the underlying sink and carries
`depth = outer.depth + 1`. -/
def newWriterOverWriter (outer : WState) : WState :=
  { depth := outer.depth + 1, count := 0, err := none }

/-- `Writer.Write`: a latched error makes the call a no-op that returns
`(0, w.err)`; otherwise the bytes go to the shared buffer and `count`
advances. -/
def writerWrite (w : WState) (snk : WSink) (buf : List Nat) :
    WState × WSink × Nat × Option Err :=
  match w.err with
  | some e => (w, snk, 0, some e)
  | none =>
    ({ w with count := w.count + buf.length },
      { snk with buffered := snk.buffered ++ buf }, buf.length, none)

/-- `Writer.WriteByte`. -/
def writerWriteByte (w : WState) (snk : WSink) (b : Nat) :
    WState × WSink × Option Err :=
  match w.err with
  | some e => (w, snk, some e)
  | none =>
    ({ w with count := w.count + 1 },
      { snk with buffered := snk.buffered ++ [b] }, none)

/-- `Writer.WriteUint16`: encode big-endian (library default order) and
`Write`. -/
def writerWriteUint16 (w : WState) (snk : WSink) (v : Nat) : WState × WSink :=
  match w.err with
  | some _ => (w, snk)
  | none =>
    let r := writerWrite w snk (beBytes 2 v)
    (r.1, r.2.1)

/-- `Writer.WriteUint32`. -/
def writerWriteUint32 (w : WState) (snk : WSink) (v : Nat) : WState × WSink :=
  match w.err with
  | some _ => (w, snk)
  | none =>
    let r := writerWrite w snk (beBytes 4 v)
    (r.1, r.2.1)

/-- `Writer.WriteUint64`. -/
def writerWriteUint64 (w : WState) (snk : WSink) (v : Nat) : WState × WSink :=
  match w.err with
  | some _ => (w, snk)
  | none =>
    let r := writerWrite w snk (beBytes 8 v)
    (r.1, r.2.1)

/-- `Writer.WriteBool`: one byte, `0x01` for true, `0x00` for false. -/
def writerWriteBool (w : WState) (snk : WSink) (v : Bool) : WState × WSink :=
  match w.err with
  | some _ => (w, snk)
  | none =>
    ({ w with count := w.count + 1 },
      { snk with buffered := snk.buffered ++ [if v then 1 else 0] })

/-- `Writer.Flush`: a no-op returning `w.err` when the depth is non-zero or
an error is latched; otherwise the shared buffer is drained to the sink. -/
def writerFlush (w : WState) (snk : WSink) : WState × WSink × Option Err :=
  if w.depth > 0 ∨ w.err ≠ none then (w, snk, w.err)
  else (w, { buffered := [], flushed := snk.flushed ++ snk.buffered }, none)

/-- `Writer.Result`: `Flush` then report the count and latched error. -/
def writerResult (w : WState) (snk : WSink) :
    WState × WSink × Nat × Option Err :=
  let r := writerFlush w snk
  (r.1, r.2.1, r.1.count, r.1.err)

/-- **C2 (error latching).**  Once a typed reader or writer has latched an
error, every primitive call is a no-op: the state (source bytes, sink bytes,
cumulative count, latched error) is unchanged, the destination argument is
returned untouched, and the latched error is returned. -/
theorem error_latching (s : RState) (w : WState) (snk : WSink) (e e2 : Err)
    (hr : s.err = some e) (hw : w.err = some e2) :
    (∀ k, readerRead s k = (s, 0, some e))
    ∧ (∀ d, readUint8 s d = (s, d))
    ∧ (∀ d, readUint16 s d = (s, d))
    ∧ (∀ d, readUint32 s d = (s, d))
    ∧ (∀ d, readUint64 s d = (s, d))
    ∧ (∀ d, readBool s d = (s, d))
    ∧ readerReadByte s = (s, 0, some e)
    ∧ (∀ buf, writerWrite w snk buf = (w, snk, 0, some e2))
    ∧ (∀ b, writerWriteByte w snk b = (w, snk, some e2))
    ∧ (∀ v, writerWriteUint16 w snk v = (w, snk))
    ∧ (∀ v, writerWriteUint32 w snk v = (w, snk))
    ∧ (∀ v, writerWriteUint64 w snk v = (w, snk))
    ∧ (∀ v, writerWriteBool w snk v = (w, snk)) := by
  refine ⟨?_, ?_, ?_, ?_, ?_, ?_, ?_, ?_, ?_, ?_, ?_, ?_, ?_⟩ <;>
    intros <;>
    simp [readerRead, readUint8, readUint16, readUint32, readUint64,
      readBool, readerReadByte, readerReadFull, writerWrite, writerWriteByte,
      writerWriteUint16, writerWriteUint32, writerWriteUint64,
      writerWriteBool, hr, hw]

/-- Witness for `error_latching`: a reader and a writer that have both
latched `io.ErrShortWrite`. -/
theorem error_latching_witness :
    (⟨[7, 8], 3, some .shortWrite⟩ : RState).err = some Err.shortWrite
    ∧ readUint16 ⟨[7, 8], 3, some .shortWrite⟩ 0
        = (⟨[7, 8], 3, some .shortWrite⟩, 0)
    ∧ writerWrite ⟨0, 5, some .shortWrite⟩ ⟨[1], [2]⟩ [9]
        = (⟨0, 5, some .shortWrite⟩, ⟨[1], [2]⟩, 0, some .shortWrite) := by
  have h := error_latching ⟨[7, 8], 3, some .shortWrite⟩
    ⟨0, 5, some .shortWrite⟩ ⟨[1], [2]⟩ .shortWrite .shortWrite rfl rfl
  exact ⟨rfl, h.2.2.1 0, h.2.2.2.2.2.2.2.1 [9]⟩

/-- **C3 (EOS distinction), divergence exhibit.**  On the code, a clean
end-of-stream at the boundary of a 2-byte primitive (the source delivers
zero bytes) does NOT latch `io.EOF`: `readFull` rewrites it to
`io.ErrUnexpectedEOF`, so `IsEOF()` is false — the same outcome as the
genuinely partial read (second conjunct), which the claim correctly
describes. -/
theorem readfull_clean_eos_upgraded :
    ((readUint16 ⟨[], 0, none⟩ 0).1.err = some .unexpectedEOF
      ∧ readerIsEOF (readUint16 ⟨[], 0, none⟩ 0).1 = false)
    ∧ ((readUint16 ⟨[1], 0, none⟩ 0).1.err = some .unexpectedEOF
      ∧ readerIsEOF (readUint16 ⟨[1], 0, none⟩ 0).1 = false) := by
  decide

/-- **C8 (nested flush).**  A typed writer constructed over another typed
writer shares the sink at `depth = outer.depth + 1`; at non-zero depth
`Flush` (hence `Result`) leaves the shared buffer and the sink untouched,
primitive writes never move bytes to the sink, and only the outermost
writer's `Result` drains the buffer to the sink. -/
theorem nested_flush (outer : WState) (snk : WSink)
    (hd : outer.depth = 0) (he : outer.err = none) :
    (newWriterOverWriter outer).depth = outer.depth + 1
    ∧ (∀ (w : WState) (s : WSink), 0 < w.depth → writerFlush w s = (w, s, w.err))
    ∧ (∀ (w : WState) (s : WSink), 0 < w.depth →
        writerResult w s = (w, s, w.count, w.err))
    ∧ (∀ (w : WState) (s : WSink) (buf : List Nat),
        (writerWrite w s buf).2.1.flushed = s.flushed)
    ∧ writerResult outer snk
        = (outer, ⟨[], snk.flushed ++ snk.buffered⟩, outer.count, none) := by
  refine ⟨rfl, ?_, ?_, ?_, ?_⟩
  · intro w s hdw
    rw [writerFlush, if_pos (Or.inl hdw)]
  · intro w s hdw
    rw [writerResult, writerFlush, if_pos (Or.inl hdw)]
  · intro w s buf
    cases hwe : w.err with
    | some e => simp [writerWrite, hwe]
    | none => simp [writerWrite, hwe]
  · rw [writerResult, writerFlush, if_neg (by simp [hd, he])]
    simp [he]

/-- Witness for `nested_flush`: a fresh outermost writer over a sink whose
buffer holds one byte. -/
theorem nested_flush_witness :
    ((⟨0, 1, none⟩ : WState).depth = 0 ∧ (⟨0, 1, none⟩ : WState).err = none)
    ∧ ((newWriterOverWriter ⟨0, 1, none⟩).depth = (⟨0, 1, none⟩ : WState).depth + 1
      ∧ (∀ (w : WState) (s : WSink), 0 < w.depth →
          writerFlush w s = (w, s, w.err))
      ∧ (∀ (w : WState) (s : WSink), 0 < w.depth →
          writerResult w s = (w, s, w.count, w.err))
      ∧ (∀ (w : WState) (s : WSink) (buf : List Nat),
          (writerWrite w s buf).2.1.flushed = s.flushed)
      ∧ writerResult ⟨0, 1, none⟩ ⟨[5], []⟩
          = (⟨0, 1, none⟩, ⟨[], [] ++ [5]⟩, (⟨0, 1, none⟩ : WState).count, none)) :=
  ⟨⟨rfl, rfl⟩, nested_flush ⟨0, 1, none⟩ ⟨[5], []⟩ rfl rfl⟩

/-! ## Reader construction (`NewReaderSize`)

The constructor inspects the runtime type of the source before it applies
the minimum-size check, so the check only ever fires for sources that fall
through the dispatch `switch`. -/

/-- The runtime source types `NewReaderSize` distinguishes.  `typedReader`
carries the size of the inner reader's buffer, `bufioReader` the size of the
existing `bufio` buffer. -/
inductive Src where
  | typedReader (innerSize : Nat)
  | bufioReader (bufSize : Nat)
  | bytesReaderSrc
  | stdBytesReader
  | bytesBuffer
  | generic
  | nilReader
  deriving DecidableEq, Repr

/-- Which adapter the constructor picked. -/
inductive ReaderOutcome where
  | reuseTyped
  | wrapBufio
  | wrapBytesReader
  | wrapStdBytesReader
  | wrapBytesBuffer
  | defaultBufio
  deriving DecidableEq, Repr

/-- `NewReaderSize` (source-type dispatch, then the `size < 16` check, then
the default `bufio` adapter).  The `*Reader` case with an inadequate inner
buffer falls through the `switch` into the size check, like the code. -/
def newReaderSize (r : Src) (size : Nat) : Except Err ReaderOutcome :=
  match r with
  | .nilReader => .error .nilSource
  | .typedReader inner =>
    if size ≤ inner then .ok .reuseTyped
    else if size < 16 then .error .sizeTooSmall
    else .ok .defaultBufio
  | .bufioReader b =>
    if size ≤ b then .ok .wrapBufio else .error .alreadyBuffered
  | .bytesReaderSrc => .ok .wrapBytesReader
  | .stdBytesReader => .ok .wrapStdBytesReader
  | .bytesBuffer => .ok .wrapBytesBuffer
  | .generic =>
    if size < 16 then .error .sizeTooSmall else .ok .defaultBufio

/-- `NewReader`: the default constructor requests size 0. -/
def newReader (r : Src) : Except Err ReaderOutcome := newReaderSize r 0

/-- **C10 (constructor size check after dispatch).**  For a source that is
none of the recognized types, every requested size below 16 — including the
0 requested by `NewReader` — fails with `ErrSizeTooSmall`, while byte-slice
and `bytes.Buffer` sources succeed at every requested size because the
dispatch returns before the size check. -/
theorem constructor_size_check (size : Nat) (hs : size < 16) :
    newReaderSize .generic size = .error .sizeTooSmall
    ∧ newReader .generic = .error .sizeTooSmall
    ∧ (∀ sz, newReaderSize .bytesReaderSrc sz = .ok .wrapBytesReader)
    ∧ (∀ sz, newReaderSize .stdBytesReader sz = .ok .wrapStdBytesReader)
    ∧ (∀ sz, newReaderSize .bytesBuffer sz = .ok .wrapBytesBuffer) := by
  refine ⟨?_, rfl, fun _ => rfl, fun _ => rfl, fun _ => rfl⟩
  rw [newReaderSize, if_pos hs]

/-- Witness for `constructor_size_check` at the default size 0. -/
theorem constructor_size_check_witness :
    (0 : Nat) < 16
    ∧ (newReaderSize .generic 0 = .error .sizeTooSmall
      ∧ newReader .generic = .error .sizeTooSmall
      ∧ (∀ sz, newReaderSize .bytesReaderSrc sz = .ok .wrapBytesReader)
      ∧ (∀ sz, newReaderSize .stdBytesReader sz = .ok .wrapStdBytesReader)
      ∧ (∀ sz, newReaderSize .bytesBuffer sz = .ok .wrapBytesBuffer)) :=
  ⟨by decide, constructor_size_check 0 (by decide)⟩

/-! ## Chained reader (payload + trailer)

`ChainedReader` bounds an underlying stream to `N` payload bytes through an
`io.LimitedReader` and fires a trailer callback once the bound is crossed.
The underlying stream is byte-slice backed (`data` with a cursor `pos`,
`bytes.Reader` semantics), which is also what gives `ChainedReadSeeker` its
`Seek`.  The callback is modelled as a pure observer that always succeeds:
each invocation is recorded together with the argument it received (the
remaining content of the still-open underlying source). -/

/-- State of a `ChainedReader` over a seekable byte source.
`lim` is `R.N` (an `int64`: a seek can drive it negative), `orig` is the
stored main-stream length `N`, `ex` the *executed* flag `E`;
`cbCount`/`cbArgs` record the callback invocations. -/
structure CRState where
  data : List Nat
  pos : Nat
  lim : Int
  orig : Nat
  ex : Bool
  cbCount : Nat
  cbArgs : List (List Nat)
  deriving DecidableEq, Repr

/-- `ChainReader(reader, n, callback)`: fresh state over a source holding
`data`, with bound and stored length `n`. -/
def chainReader (data : List Nat) (n : Nat) : CRState :=
  ⟨data, 0, n, n, false, 0, []⟩

/-- Invoke the callback `C(r.U)`: record the invocation and the remaining
bytes of the still-open underlying source, and set the executed flag. -/
def fireCB (st : CRState) : CRState :=
  ⟨st.data, st.pos, st.lim, st.orig, true, st.cbCount + 1,
    st.cbArgs ++ [st.data.drop st.pos]⟩

/-- One `Read` on the `io.LimitedReader` `r.R`: `(0, io.EOF)` once the bound
is spent; otherwise the request is clipped to the bound and served by the
underlying byte source (which itself yields `(0, io.EOF)` when drained). -/
def limRead (st : CRState) (k : Nat) : CRState × Nat × Option Err :=
  if st.lim ≤ 0 then (st, 0, some .eof)
  else if st.data.length ≤ st.pos then (st, 0, some .eof)
  else
    let n := min (min k st.lim.toNat) (st.data.length - st.pos)
    (⟨st.data, st.pos + n, st.lim - n, st.orig, st.ex, st.cbCount, st.cbArgs⟩,
      n, none)

/-- `ChainedReader.Read`: consistent `io.EOF` once executed and drained;
otherwise one bounded read, and when the bound is reached (`r.R.N == 0`) or
the source signalled `io.EOF`, fire the callback exactly once and surface
end-of-stream. -/
def crRead (st : CRState) (k : Nat) : CRState × Nat × Option Err :=
  if st.ex ∧ st.lim ≤ 0 then (st, 0, some .eof)
  else
    match limRead st k with
    | (st1, n, e) =>
      if st1.lim = 0 ∨ e = some .eof then
        if st1.ex then (st1, n, some .eof)
        else
          let st2 := fireCB st1
          (st2, n, if e = none then some .eof else e)
      else (st1, n, e)

/-- `ChainedReader.WriteTo`: nothing when already executed and drained;
otherwise `io.CopyN(w, r.R, r.R.N)` (which reports `io.EOF` when the source
dries up before the bound, and `(0, nil)` for a non-positive bound), then
the callback unless it already ran. -/
def crWriteTo (st : CRState) : CRState × Nat × Option Err :=
  if st.ex ∧ st.lim ≤ 0 then (st, 0, none)
  else
    let want := st.lim.toNat
    let avail := st.data.length - st.pos
    let m := min want avail
    let st1 : CRState :=
      ⟨st.data, st.pos + m, st.lim - m, st.orig, st.ex, st.cbCount, st.cbArgs⟩
    if m < want then (st1, m, some .eof)
    else if st1.ex then (st1, m, none)
    else (fireCB st1, m, none)

/-- `Seek` whence values. -/
inductive Whence where
  | start
  | current
  | endPos
  deriving DecidableEq, Repr

/-- The absolute seek target of the underlying byte source
(`BytesReader.Seek`). -/
def crSeekAbs (st : CRState) (offset : Int) (w : Whence) : Int :=
  match w with
  | .start => offset
  | .current => st.pos + offset
  | .endPos => st.data.length + offset

/-- `ChainedReadSeeker.Seek`: seek the underlying byte source
(`BytesReader.Seek` semantics: any non-negative absolute target, even past
the end), then set `r.R.N = r.N - n` and clear the executed flag.  On an
underlying seek failure nothing else changes. -/
def crSeek (st : CRState) (offset : Int) (w : Whence) :
    CRState × Int × Option Err :=
  if crSeekAbs st offset w < 0 then (st, 0, some .invalidSeek)
  else
    (⟨st.data, (crSeekAbs st offset w).toNat,
      (st.orig : Int) - crSeekAbs st offset w, st.orig, false, st.cbCount,
      st.cbArgs⟩, crSeekAbs st offset w, none)

/-- The operations a caller can interleave on a chained reader. -/
inductive CROp where
  | read (k : Nat)
  | writeTo
  deriving DecidableEq, Repr

/-- Run one caller operation, keeping only the state. -/
def crStep (st : CRState) (op : CROp) : CRState :=
  match op with
  | .read k => (crRead st k).1
  | .writeTo => (crWriteTo st).1

/-- Run a sequence of caller operations. -/
def crRun (st : CRState) (ops : List CROp) : CRState :=
  ops.foldl crStep st

/-- Reachability invariant of a chained reader whose source holds the whole
payload, between two seeks: `base` callback invocations happened on earlier
passes. -/
def crInv (base : Nat) (st : CRState) : Prop :=
  st.lim = (st.orig : Int) - st.pos
  ∧ st.pos ≤ st.orig
  ∧ st.orig ≤ st.data.length
  ∧ (st.ex → st.pos = st.orig)
  ∧ (0 < st.orig → st.pos = st.orig → st.ex)
  ∧ st.cbCount = base + (if st.ex then 1 else 0)
  ∧ (∀ a ∈ st.cbArgs, a = st.data.drop st.orig)
  ∧ st.cbArgs.length = st.cbCount

theorem append_singleton_ne_nil {α : Type} (l : List α) (a : α) :
    l ++ [a] ≠ [] := by
  intro hc
  have := congrArg List.length hc
  simp at this

theorem crInv_read (base : Nat) (st : CRState) (k : Nat)
    (h : crInv base st) : crInv base (crRead st k).1
    ∧ (crRead st k).1.data = st.data ∧ (crRead st k).1.orig = st.orig
    ∧ st.pos ≤ (crRead st k).1.pos
    ∧ (st.ex → (crRead st k).1 = st)
    ∧ ((crRead st k).2.2 = some .eof → (crRead st k).1.ex) := by
  obtain ⟨hlim, hple, hdlen, hexp, hpex, hcb, hargs, hlen⟩ := h
  by_cases hex : st.ex
  · have hpos : st.pos = st.orig := hexp hex
    have hl0 : st.lim ≤ 0 := by rw [hlim, hpos]; omega
    have hread : crRead st k = (st, 0, some .eof) := by
      rw [crRead, if_pos ⟨hex, hl0⟩]
    rw [hread]
    exact ⟨⟨hlim, hple, hdlen, hexp, hpex, hcb, hargs, hlen⟩, rfl, rfl,
      le_refl _, fun _ => rfl, fun _ => hex⟩
  · by_cases hpos : st.pos = st.orig
    · -- only possible with orig = 0 (otherwise the invariant forces `ex`)
      have hl0 : st.lim ≤ 0 := by rw [hlim, hpos]; omega
      have hread : crRead st k = (fireCB st, 0, some .eof) := by
        have hc1 : ¬ (st.ex = true ∧ st.lim ≤ 0) := fun hc => hex hc.1
        rw [crRead, if_neg hc1, limRead, if_pos hl0]
        simp [hex]
      rw [hread]
      refine ⟨⟨hlim, hple, hdlen, fun _ => hpos, fun _ _ => rfl, ?_, ?_, ?_⟩,
        rfl, rfl, le_refl _, fun hc => absurd hc hex, fun _ => rfl⟩
      · show st.cbCount + 1 = base + 1
        rw [if_neg hex] at hcb
        omega
      · intro a ha
        rcases List.mem_append.mp ha with ha | ha
        · exact hargs a ha
        · rw [List.mem_singleton.mp ha]
          show st.data.drop st.pos = st.data.drop st.orig
          rw [hpos]
      · show (st.cbArgs ++ [st.data.drop st.pos]).length = st.cbCount + 1
        simp [hlen]
    · -- strictly inside the payload
      have hplt : st.pos < st.orig := lt_of_le_of_ne hple hpos
      have hlpos : ¬ st.lim ≤ 0 := by rw [hlim]; omega
      have hsrc : ¬ st.data.length ≤ st.pos := by omega
      set n := min (min k st.lim.toNat) (st.data.length - st.pos) with hn
      set st1 : CRState :=
        ⟨st.data, st.pos + n, st.lim - n, st.orig, st.ex, st.cbCount,
          st.cbArgs⟩ with hst1
      have hlr : limRead st k = (st1, n, none) := by
        rw [limRead, if_neg hlpos, if_neg hsrc]
      have hnlim : (n : Int) ≤ st.lim := by
        have h1 : n ≤ st.lim.toNat := le_trans (Nat.min_le_left _ _)
          (Nat.min_le_right _ _)
        omega
      have hnpos : st.pos + n ≤ st.orig := by
        rw [hlim] at hnlim; omega
      by_cases hdone : st.lim - (n : Int) = 0
      · -- the read reaches the bound: the callback fires
        have hpon : st.pos + n = st.orig := by rw [hlim] at hdone; omega
        have hread : crRead st k = (fireCB st1, n, some .eof) := by
          have hc1 : ¬ (st.ex = true ∧ st.lim ≤ 0) := fun hc => hex hc.1
          rw [crRead, if_neg hc1, hlr]
          simp only [hst1]
          simp [hdone, hex]
        rw [hread]
        refine ⟨⟨?_, ?_, hdlen, ?_, fun _ _ => rfl, ?_, ?_, ?_⟩, rfl, rfl,
          Nat.le_add_right _ _, fun hc => absurd hc hex, fun _ => rfl⟩
        · show st.lim - (n : Int) = (st.orig : Int) - (st.pos + n)
          rw [hlim]; ring
        · exact hnpos
        · intro _; exact hpon
        · show st.cbCount + 1 = base + 1
          rw [if_neg hex] at hcb
          omega
        · intro a ha
          rcases List.mem_append.mp ha with ha | ha
          · exact hargs a ha
          · rw [List.mem_singleton.mp ha]
            show st.data.drop (st.pos + n) = st.data.drop st.orig
            rw [hpon]
        · show (st.cbArgs ++ [st.data.drop (st.pos + n)]).length
              = st.cbCount + 1
          simp [hlen]
      · -- still inside the payload: no callback
        have hread : crRead st k = (st1, n, none) := by
          have hc1 : ¬ (st.ex = true ∧ st.lim ≤ 0) := fun hc => hex hc.1
          rw [crRead, if_neg hc1, hlr]
          simp only [hst1]
          simp [hdone]
        rw [hread]
        refine ⟨⟨?_, hnpos, hdlen, fun hc => absurd hc hex, ?_, hcb, hargs,
          hlen⟩, rfl, rfl, Nat.le_add_right _ _, fun hc => absurd hc hex,
          fun hc => Option.noConfusion hc⟩
        · show st.lim - (n : Int) = (st.orig : Int) - (st.pos + n)
          rw [hlim]; ring
        · intro _ hc
          exfalso
          apply hdone
          have : st.pos + n = st.orig := hc
          rw [hlim]; omega

theorem crInv_writeTo (base : Nat) (st : CRState)
    (h : crInv base st) : crInv base (crWriteTo st).1
    ∧ (crWriteTo st).1.data = st.data ∧ (crWriteTo st).1.orig = st.orig
    ∧ st.pos ≤ (crWriteTo st).1.pos
    ∧ (st.ex → (crWriteTo st).1 = st) := by
  obtain ⟨hlim, hple, hdlen, hexp, hpex, hcb, hargs, hlen⟩ := h
  by_cases hex : st.ex
  · have hpos : st.pos = st.orig := hexp hex
    have hl0 : st.lim ≤ 0 := by rw [hlim, hpos]; omega
    have hw : crWriteTo st = (st, 0, none) := by
      rw [crWriteTo, if_pos ⟨hex, hl0⟩]
    rw [hw]
    exact ⟨⟨hlim, hple, hdlen, hexp, hpex, hcb, hargs, hlen⟩, rfl, rfl,
      le_refl _, fun _ => rfl⟩
  · -- the full remaining bound is copied and the callback fires
    have hc1 : ¬ (st.ex = true ∧ st.lim ≤ 0) := fun hc => hex hc.1
    have hwant : st.lim.toNat = st.orig - st.pos := by
      rw [hlim]; omega
    have hm : min st.lim.toNat (st.data.length - st.pos)
        = st.orig - st.pos := by
      rw [hwant]
      exact Nat.min_eq_left (by omega)
    set m := min st.lim.toNat (st.data.length - st.pos) with hmdef
    set st1 : CRState :=
      ⟨st.data, st.pos + m, st.lim - m, st.orig, st.ex, st.cbCount,
        st.cbArgs⟩ with hst1
    have hnotlt : ¬ m < st.lim.toNat := by rw [hm, hwant]; omega
    have hw : crWriteTo st = (fireCB st1, m, none) := by
      rw [crWriteTo, if_neg hc1]
      simp only [← hmdef, ← hst1]
      rw [if_neg hnotlt, if_neg hex]
    have hpon : st.pos + m = st.orig := by rw [hm]; omega
    rw [hw]
    refine ⟨⟨?_, ?_, hdlen, ?_, fun _ _ => rfl, ?_, ?_, ?_⟩, rfl, rfl,
      Nat.le_add_right _ _, fun hc => absurd hc hex⟩
    · show st.lim - (m : Int) = (st.orig : Int) - (st.pos + m)
      rw [hlim]; ring
    · show st.pos + m ≤ st.orig
      omega
    · intro _; exact hpon
    · show st.cbCount + 1 = base + 1
      rw [if_neg hex] at hcb
      omega
    · intro a ha
      rcases List.mem_append.mp ha with ha | ha
      · exact hargs a ha
      · rw [List.mem_singleton.mp ha]
        show st.data.drop (st.pos + m) = st.data.drop st.orig
        rw [hpon]
    · show (st.cbArgs ++ [st.data.drop (st.pos + m)]).length = st.cbCount + 1
      simp [hlen]

theorem crInv_run (base : Nat) (st : CRState) (ops : List CROp)
    (h : crInv base st) : crInv base (crRun st ops)
    ∧ (crRun st ops).data = st.data ∧ (crRun st ops).orig = st.orig
    ∧ st.pos ≤ (crRun st ops).pos := by
  induction ops generalizing st with
  | nil => exact ⟨h, rfl, rfl, le_refl _⟩
  | cons op ops ih =>
    have hstep : crInv base (crStep st op)
        ∧ (crStep st op).data = st.data ∧ (crStep st op).orig = st.orig
        ∧ st.pos ≤ (crStep st op).pos := by
      cases op with
      | read k =>
        have := crInv_read base st k h
        exact ⟨this.1, this.2.1, this.2.2.1, this.2.2.2.1⟩
      | writeTo =>
        have := crInv_writeTo base st h
        exact ⟨this.1, this.2.1, this.2.2.1, this.2.2.2.1⟩
    have hunf : crRun st (op :: ops) = crRun (crStep st op) ops := rfl
    have := ih (crStep st op) hstep.1
    refine ⟨this.1, ?_, ?_, le_trans hstep.2.2.2 this.2.2.2⟩
    · rw [hunf, this.2.1, hstep.2.1]
    · rw [hunf, this.2.2.1, hstep.2.2.1]

theorem crInv_chainReader (data : List Nat) (n : Nat) (h : n ≤ data.length) :
    crInv 0 (chainReader data n) := by
  refine ⟨by simp [chainReader], by simp [chainReader],
    by simpa [chainReader] using h, ?_, ?_, by simp [chainReader],
    by simp [chainReader], by simp [chainReader]⟩
  · intro hc; exact absurd hc (by simp [chainReader])
  · intro ho hc
    exfalso
    simp [chainReader] at ho hc
    omega

/-- **C5 (chained callback).**  Over a source that holds the whole `N`-byte
payload, any interleaving of reads and `WriteTo` calls fires the trailer
callback exactly once when it drains the payload (`pos = N`) and never
before (`pos < N`); the callback always receives the still-open underlying
source positioned at the trailer (`data.drop N`); a read can only surface
end-of-stream to the caller once the callback has fired; and after a seek
back into the payload, draining the payload again fires the callback a
second time. -/
theorem chained_callback (data : List Nat) (N : Nat) (ops : List CROp)
    (h : N ≤ data.length) :
    ((crRun (chainReader data N) ops).pos = N → 0 < N →
      (crRun (chainReader data N) ops).cbCount = 1
      ∧ (crRun (chainReader data N) ops).cbArgs = [data.drop N])
    ∧ ((crRun (chainReader data N) ops).pos < N →
        (crRun (chainReader data N) ops).cbCount = 0)
    ∧ (∀ k, (crRead (crRun (chainReader data N) ops) k).2.2 = some .eof →
        (crRead (crRun (chainReader data N) ops) k).1.cbCount = 1)
    ∧ (∀ (p : Nat) (ops2 : List CROp), p < N →
        (crRun (chainReader data N) ops).pos = N →
        (crRun ((crSeek (crRun (chainReader data N) ops) p .start).1)
            ops2).pos = N →
        (crRun ((crSeek (crRun (chainReader data N) ops) p .start).1)
            ops2).cbCount = 2) := by
  have hrun := crInv_run 0 (chainReader data N) ops
    (crInv_chainReader data N h)
  set fin := crRun (chainReader data N) ops with hfin
  obtain ⟨⟨hlim, hple, hdlen, hexp, hpex, hcb, hargs, hlen⟩, hdata, horig, _⟩ :=
    hrun
  have hdata2 : fin.data = data := by simpa [chainReader] using hdata
  have horig2 : fin.orig = N := by simpa [chainReader] using horig
  refine ⟨?_, ?_, ?_, ?_⟩
  · -- drained exactly once, argument = the trailer
    intro hp hN
    have hexq : fin.ex := hpex (by omega) (by omega)
    have hc1 : fin.cbCount = 1 := by rw [hcb, if_pos hexq]
    refine ⟨hc1, ?_⟩
    have hlen1 : fin.cbArgs.length = 1 := by rw [hlen, hc1]
    rcases List.length_eq_one.mp hlen1 with ⟨a, ha⟩
    have hav : a = data.drop N := by
      have := hargs a (by rw [ha]; exact List.mem_singleton_self a)
      rw [hdata2, horig2] at this
      exact this
    rw [ha, hav]
  · -- before the drain the callback has not fired
    intro hp
    have hnex : ¬ fin.ex := by
      intro hc
      have := hexp hc
      omega
    rw [hcb, if_neg hnex]
  · -- end-of-stream reaches the caller only after the callback fired
    intro k heof
    have hinv : crInv 0 fin :=
      ⟨hlim, hple, hdlen, hexp, hpex, hcb, hargs, hlen⟩
    have hread := crInv_read 0 fin k hinv
    have hex2 : (crRead fin k).1.ex := hread.2.2.2.2.2 heof
    have hcb2 := hread.1.2.2.2.2.2.1
    rw [hcb2, if_pos hex2]
  · -- a seek back into the payload re-arms the callback for a second fire
    intro p ops2 hpN hdrained hp2
    have hexq : fin.ex := hpex (by omega) (by omega)
    have hc1 : fin.cbCount = 1 := by rw [hcb, if_pos hexq]
    have habs : ¬ (crSeekAbs fin (p : Int) .start < 0) := by
      show ¬ ((p : Int) < 0)
      omega
    have hseek : (crSeek fin (p : Int) .start).1
        = ⟨fin.data, p, (fin.orig : Int) - p, fin.orig, false, fin.cbCount,
            fin.cbArgs⟩ := by
      rw [crSeek, if_neg habs]
      simp [crSeekAbs]
    have hinv2 : crInv 1 ((crSeek fin (p : Int) .start).1) := by
      rw [hseek]
      refine ⟨?_, ?_, hdlen, ?_, ?_, ?_, hargs, hlen⟩
      · show (fin.orig : Int) - p = (fin.orig : Int) - p
        rfl
      · show p ≤ fin.orig
        omega
      · intro hc; exact Bool.noConfusion hc
      · intro _ hc
        exfalso
        have hpe : p = fin.orig := hc
        omega
      · show fin.cbCount = 1
        exact hc1
    have hrun2 := crInv_run 1 _ ops2 hinv2
    obtain ⟨⟨_, _, _, _, hpex2, hcb2, _, _⟩, _, horig3, _⟩ := hrun2
    have horig4 : (crRun ((crSeek fin (p : Int) .start).1) ops2).orig = N := by
      rw [horig3, hseek]
      exact horig2
    have hex2 : (crRun ((crSeek fin (p : Int) .start).1) ops2).ex := by
      apply hpex2 <;> omega
    rw [hcb2, if_pos hex2]

/-- Witness for `chained_callback`: a 3-byte payload with a 2-byte trailer,
drained by two reads. -/
theorem chained_callback_witness :
    3 ≤ ([1, 2, 3, 4, 5] : List Nat).length
    ∧ (((crRun (chainReader [1, 2, 3, 4, 5] 3) [.read 2, .read 2]).pos = 3 →
          0 < 3 →
          (crRun (chainReader [1, 2, 3, 4, 5] 3) [.read 2, .read 2]).cbCount = 1
          ∧ (crRun (chainReader [1, 2, 3, 4, 5] 3) [.read 2, .read 2]).cbArgs
              = [([1, 2, 3, 4, 5] : List Nat).drop 3])
      ∧ ((crRun (chainReader [1, 2, 3, 4, 5] 3) [.read 2, .read 2]).pos < 3 →
          (crRun (chainReader [1, 2, 3, 4, 5] 3) [.read 2, .read 2]).cbCount
            = 0)
      ∧ (∀ k,
          (crRead (crRun (chainReader [1, 2, 3, 4, 5] 3) [.read 2, .read 2])
            k).2.2 = some .eof →
          (crRead (crRun (chainReader [1, 2, 3, 4, 5] 3) [.read 2, .read 2])
            k).1.cbCount = 1)
      ∧ (∀ (p : Nat) (ops2 : List CROp), p < 3 →
          (crRun (chainReader [1, 2, 3, 4, 5] 3) [.read 2, .read 2]).pos = 3 →
          (crRun ((crSeek (crRun (chainReader [1, 2, 3, 4, 5] 3)
              [.read 2, .read 2]) p .start).1) ops2).pos = 3 →
          (crRun ((crSeek (crRun (chainReader [1, 2, 3, 4, 5] 3)
              [.read 2, .read 2]) p .start).1) ops2).cbCount = 2)) :=
  ⟨by decide, chained_callback [1, 2, 3, 4, 5] 3 [.read 2, .read 2] (by decide)⟩

/-- **C9 (seek resets bound and executed flag).**  Every successful seek of
a `ChainedReadSeeker` leaves the remaining bound at `N` minus the new
absolute position and clears the executed flag, whatever the target; as a
consequence, a forward seek to or past the payload end re-enables the
callback: the next read (of any size) fires it once more and returns
end-of-stream. -/
theorem seek_resets_bound (st : CRState) (off : Int) (w : Whence) (t k : Nat)
    (hseek : (crSeek st off w).2.2 = none) (ht : st.orig ≤ t) :
    ((crSeek st off w).1.lim
        = ((crSeek st off w).1.orig : Int) - (crSeek st off w).1.pos
      ∧ (crSeek st off w).1.ex = false
      ∧ (crSeek st off w).2.1 = ((crSeek st off w).1.pos : Int)
      ∧ (crSeek st off w).1.orig = st.orig)
    ∧ ((crRead (crSeek st (t : Int) .start).1 k).1.cbCount = st.cbCount + 1
      ∧ (crRead (crSeek st (t : Int) .start).1 k).2.2 = some .eof) := by
  constructor
  · by_cases habs : crSeekAbs st off w < 0
    · exfalso
      rw [crSeek, if_pos habs] at hseek
      exact Option.noConfusion hseek
    · have hs : crSeek st off w
          = (⟨st.data, (crSeekAbs st off w).toNat,
              (st.orig : Int) - crSeekAbs st off w, st.orig, false,
              st.cbCount, st.cbArgs⟩, crSeekAbs st off w, none) := by
        rw [crSeek, if_neg habs]
      rw [hs]
      refine ⟨?_, rfl, ?_, rfl⟩
      · show (st.orig : Int) - crSeekAbs st off w
            = (st.orig : Int) - ((crSeekAbs st off w).toNat : Int)
        omega
      · show crSeekAbs st off w = ((crSeekAbs st off w).toNat : Int)
        omega
  · have habs : ¬ (crSeekAbs st (t : Int) .start < 0) := by
      show ¬ ((t : Int) < 0)
      omega
    have hS : (crSeek st (t : Int) .start).1
        = ⟨st.data, t, (st.orig : Int) - t, st.orig, false, st.cbCount,
            st.cbArgs⟩ := by
      rw [crSeek, if_neg habs]
      simp [crSeekAbs]
    rw [hS]
    set S : CRState :=
      ⟨st.data, t, (st.orig : Int) - t, st.orig, false, st.cbCount,
        st.cbArgs⟩ with hSdef
    have hl0 : S.lim ≤ 0 := by
      show (st.orig : Int) - t ≤ 0
      omega
    have hread : crRead S k = (fireCB S, 0, some .eof) := by
      have hc1 : ¬ (S.ex = true ∧ S.lim ≤ 0) := fun hc => Bool.noConfusion hc.1
      rw [crRead, if_neg hc1, limRead, if_pos hl0]
      simp
    rw [hread]
    exact ⟨rfl, rfl⟩
/-- Witness for `seek_resets_bound`: a drained chained reader (`pos = orig
= 3`, executed) seeked forward by 1 from the current position. -/
theorem seek_resets_bound_witness :
    ((crSeek ⟨[9, 9, 9, 9], 3, 0, 3, true, 1, [[9]]⟩ 1 .current).2.2 = none
      ∧ (⟨[9, 9, 9, 9], 3, 0, 3, true, 1, [[9]]⟩ : CRState).orig ≤ 3)
    ∧ (((crSeek ⟨[9, 9, 9, 9], 3, 0, 3, true, 1, [[9]]⟩ 1 .current).1.lim
        = ((crSeek ⟨[9, 9, 9, 9], 3, 0, 3, true, 1, [[9]]⟩ 1
            .current).1.orig : Int)
          - (crSeek ⟨[9, 9, 9, 9], 3, 0, 3, true, 1, [[9]]⟩ 1 .current).1.pos
      ∧ (crSeek ⟨[9, 9, 9, 9], 3, 0, 3, true, 1, [[9]]⟩ 1 .current).1.ex
          = false
      ∧ (crSeek ⟨[9, 9, 9, 9], 3, 0, 3, true, 1, [[9]]⟩ 1 .current).2.1
          = ((crSeek ⟨[9, 9, 9, 9], 3, 0, 3, true, 1, [[9]]⟩ 1
              .current).1.pos : Int)
      ∧ (crSeek ⟨[9, 9, 9, 9], 3, 0, 3, true, 1, [[9]]⟩ 1 .current).1.orig
          = (⟨[9, 9, 9, 9], 3, 0, 3, true, 1, [[9]]⟩ : CRState).orig)
    ∧ ((crRead (crSeek ⟨[9, 9, 9, 9], 3, 0, 3, true, 1, [[9]]⟩
          ((3 : Nat) : Int) .start).1 2).1.cbCount
        = (⟨[9, 9, 9, 9], 3, 0, 3, true, 1, [[9]]⟩ : CRState).cbCount + 1
      ∧ (crRead (crSeek ⟨[9, 9, 9, 9], 3, 0, 3, true, 1, [[9]]⟩
          ((3 : Nat) : Int) .start).1 2).2.2 = some .eof)) :=
  ⟨⟨by decide, by decide⟩,
    seek_resets_bound ⟨[9, 9, 9, 9], 3, 0, 3, true, 1, [[9]]⟩ 1 .current 3 2
      (by decide) (by decide)⟩

/-! ## List codec (list.go)

A list codec owns a sequence of element codecs and an alignment `A`.  A
well-behaved element codec (such as `Fixed`) writes exactly `Size()` bytes,
so an element is modelled by its encoded byte list and its size by that
list's length. -/

/-- `Roundup` (helpers file): arithmetic form of the source's bit trick
`(n + (align − 1)) &^ (align − 1)`.  The two coincide exactly when `align`
is a power of two, which is what the data model requires of an alignment
(`A ∈ {0 or 1, 4, 8, …}`; the bit trick is meaningless otherwise). -/
def Roundup (n align : Nat) : Nat :=
  (n + (align - 1)) - (n + (align - 1)) % align

theorem Roundup_spec (n a : Nat) (ha : 0 < a) :
    n ≤ Roundup n a ∧ Roundup n a % a = 0 ∧ Roundup n a < n + a := by
  have hm : (n + (a - 1)) % a < a := Nat.mod_lt _ ha
  have hmod := Nat.div_add_mod (n + (a - 1)) a
  refine ⟨by unfold Roundup; omega, ?_, by unfold Roundup; omega⟩
  have hd : Roundup n a = a * ((n + (a - 1)) / a) := by
    unfold Roundup; omega
  rw [hd, Nat.mul_mod_right]

/-- Justification of the arithmetic model: for a power-of-two alignment the
source's bit trick `(n + (align − 1)) &^ (align − 1)` computes exactly
`Roundup`. -/
theorem Roundup_eq_ldiff (n k : Nat) :
    Roundup n (2 ^ k) = Nat.ldiff (n + (2 ^ k - 1)) (2 ^ k - 1) := by
  have hpos : 0 < 2 ^ k := Nat.pos_pow_of_pos k (by norm_num)
  set m := n + (2 ^ k - 1) with hm
  have hdm := Nat.div_add_mod m (2 ^ k)
  have hshift : Roundup n (2 ^ k) = (m >>> k) <<< k := by
    rw [Nat.shiftRight_eq_div_pow, Nat.shiftLeft_eq]
    unfold Roundup
    rw [← hm]
    have hle : m % 2 ^ k ≤ m := Nat.mod_le _ _
    calc m - m % 2 ^ k = 2 ^ k * (m / 2 ^ k) := by omega
    _ = m / 2 ^ k * 2 ^ k := Nat.mul_comm _ _
  rw [hshift]
  apply Nat.eq_of_testBit_eq
  intro i
  rw [Nat.testBit_shiftLeft, Nat.testBit_shiftRight, Nat.testBit_ldiff,
    Nat.testBit_two_pow_sub_one]
  by_cases hik : k ≤ i
  · rw [Nat.add_sub_cancel' hik]
    simp [hik, Nat.not_lt.mpr hik]
  · simp [hik, Nat.lt_of_not_le hik]

theorem Roundup_add_of_mod (off s a : Nat) (_ha : 0 < a)
    (hoff : off % a = 0) : Roundup (off + s) a = off + Roundup s a := by
  obtain ⟨q, hq⟩ := Nat.dvd_of_mod_eq_zero hoff
  subst hq
  have h1 : (a * q + s + (a - 1)) % a = (s + (a - 1)) % a := by
    rw [Nat.add_assoc, Nat.mul_add_mod]
  have h2 : (s + (a - 1)) % a ≤ s + (a - 1) := Nat.mod_le _ _
  unfold Roundup
  omega

/-- `list.Size`: the sum of the element sizes, plus for every element
except the last (when `Alignment > 1`) the padding that rounds the
element's size up to the alignment. -/
def listSize (a : Nat) : List Nat → Nat
  | [] => 0
  | [s] => s
  | s :: ss => s + (if 1 < a then Roundup s a - s else 0) + listSize a ss

/-- The encoder loop of `list.WriteTo` at running writer count `off`: each
element's bytes, followed (for every element except the last, when
`Alignment > 1`) by `Writer.Align`'s zero padding up to the next multiple
of the alignment of the running count. -/
def listWriteToAux (a off : Nat) : List (List Nat) → List Nat
  | [] => []
  | [e] => e
  | e :: es =>
    let pad := if 1 < a then Roundup (off + e.length) a - (off + e.length)
      else 0
    e ++ List.replicate pad 0 ++ listWriteToAux a (off + e.length + pad) es

/-- `list.WriteTo`: the loop over a fresh `Writer` (`NewWriter(writer)`),
whose running count starts at 0. -/
def listWriteTo (a : Nat) (es : List (List Nat)) : List Nat :=
  listWriteToAux a 0 es

/-- The offset (relative to the start of the encoding) at which each
element's bytes begin. -/
def listOffsets (a off : Nat) : List (List Nat) → List Nat
  | [] => []
  | [_] => [off]
  | e :: es =>
    let pad := if 1 < a then Roundup (off + e.length) a - (off + e.length)
      else 0
    off :: listOffsets a (off + e.length + pad) es

/-- Elements interleaved with a run of zero padding after every element
except the last (`pads` gives the padding lengths). -/
def interleavePads : List (List Nat) → List Nat → List Nat
  | [], _ => []
  | [e], _ => e
  | e :: es, [] => e ++ interleavePads es []
  | e :: es, p :: ps => e ++ List.replicate p 0 ++ interleavePads es ps

theorem listOffsets_head (a off : Nat) (e : List Nat) (es : List (List Nat)) :
    ∃ os, listOffsets a off (e :: es) = off :: os := by
  cases es with
  | nil => exact ⟨[], rfl⟩
  | cons e2 es2 => exact ⟨_, rfl⟩

theorem listWriteToAux_spec (a : Nat) (es : List (List Nat)) (off : Nat)
    (ha : 1 < a) (hoff : off % a = 0) :
    ∃ pads : List Nat,
      pads.length = es.length - 1
      ∧ listWriteToAux a off es = interleavePads es pads
      ∧ (∀ o ∈ (listOffsets a off es).drop 1, o % a = 0)
      ∧ (listWriteToAux a off es).length = listSize a (es.map List.length) := by
  induction es generalizing off with
  | nil => exact ⟨[], rfl, rfl, by simp [listOffsets], rfl⟩
  | cons e es ih =>
    cases es with
    | nil =>
      exact ⟨[], rfl, rfl, by simp [listOffsets], by simp [listWriteToAux,
        listSize]⟩
    | cons e2 es2 =>
      have ha0 : 0 < a := by omega
      set pad := Roundup (off + e.length) a - (off + e.length) with hpad
      have hup := Roundup_spec (off + e.length) a ha0
      have hoff2 : (off + e.length + pad) % a = 0 := by
        have : off + e.length + pad = Roundup (off + e.length) a := by omega
        rw [this]
        exact hup.2.1
      obtain ⟨pads, hplen, henc, hoffs, hsize⟩ :=
        ih (off + e.length + pad) hoff2
      have hpadval : pad = Roundup e.length a - e.length := by
        rw [hpad, Roundup_add_of_mod off e.length a ha0 hoff]
        have := (Roundup_spec e.length a ha0).1
        omega
      have hunf : listWriteToAux a off (e :: e2 :: es2)
          = e ++ List.replicate pad 0
            ++ listWriteToAux a (off + e.length + pad) (e2 :: es2) := by
        show (let p := if 1 < a then Roundup (off + e.length) a
            - (off + e.length) else 0
          e ++ List.replicate p 0
            ++ listWriteToAux a (off + e.length + p) (e2 :: es2)) = _
        rw [if_pos ha, ← hpad]
      refine ⟨pad :: pads, ?_, ?_, ?_, ?_⟩
      · simp [hplen]
      · rw [hunf, henc]
        rfl
      · intro o ho
        have hounf : listOffsets a off (e :: e2 :: es2)
            = off :: listOffsets a (off + e.length + pad) (e2 :: es2) := by
          show (let p := if 1 < a then Roundup (off + e.length) a
              - (off + e.length) else 0
            off :: listOffsets a (off + e.length + p) (e2 :: es2)) = _
          rw [if_pos ha, ← hpad]
        rw [hounf] at ho
        have ho2 : o ∈ listOffsets a (off + e.length + pad) (e2 :: es2) := by
          simpa using ho
        obtain ⟨os, hos⟩ := listOffsets_head a (off + e.length + pad) e2 es2
        rw [hos] at ho2
        rcases List.mem_cons.mp ho2 with hoe | hom
        · rw [hoe]
          exact hoff2
        · apply hoffs
          rw [hos]
          simpa using hom
      · rw [hunf]
        simp only [List.length_append, List.length_replicate]
        rw [hsize]
        show e.length + pad + listSize a ((e2 :: es2).map List.length)
          = listSize a (e.length :: (e2 :: es2).map List.length)
        show _ = e.length + (if 1 < a then Roundup e.length a - e.length
          else 0) + listSize a ((e2 :: es2).map List.length)
        rw [if_pos ha, ← hpadval]

/-- **C6 (list alignment and size).**  For a list codec with alignment
`A > 1` (a power of two, as the data model requires), the encoder emits each
element followed by zero padding — except after the last element, which is
followed by nothing — such that every inter-element boundary offset is a
multiple of `A`, and the total encoded length equals `Size()` (the element
sizes plus exactly the inter-element padding). -/
theorem list_alignment (a : Nat) (es : List (List Nat)) (ha : 1 < a)
    (hpow : ∃ k, a = 2 ^ k) :
    ∃ pads : List Nat,
      pads.length = es.length - 1
      ∧ listWriteTo a es = interleavePads es pads
      ∧ (∀ o ∈ (listOffsets a 0 es).drop 1, o % a = 0)
      ∧ (listWriteTo a es).length = listSize a (es.map List.length) := by
  have _hpow := hpow
  exact listWriteToAux_spec a es 0 ha (Nat.zero_mod a)

/-- Witness for `list_alignment`: scenario S5 — two 3-byte elements at
alignment 4 encode to 7 bytes with one zero pad byte between them. -/
theorem list_alignment_witness :
    ((1 : Nat) < 4 ∧ ∃ k, (4 : Nat) = 2 ^ k)
    ∧ (∃ pads : List Nat,
      pads.length = ([[225, 225, 225], [226, 226, 226]] : List (List Nat)).length - 1
      ∧ listWriteTo 4 [[225, 225, 225], [226, 226, 226]]
          = interleavePads [[225, 225, 225], [226, 226, 226]] pads
      ∧ (∀ o ∈ (listOffsets 4 0 [[225, 225, 225], [226, 226, 226]]).drop 1,
          o % 4 = 0)
      ∧ (listWriteTo 4 [[225, 225, 225], [226, 226, 226]]).length
          = listSize 4 (([[225, 225, 225], [226, 226, 226]] :
              List (List Nat)).map List.length)) :=
  ⟨⟨by decide, ⟨2, by decide⟩⟩,
    list_alignment 4 [[225, 225, 225], [226, 226, 226]] (by decide)
      ⟨2, by decide⟩⟩

/-! ## List decoding (`list.ReadFrom`)

The decoder creates fresh elements of the list's element type via
reflection, so every element has the same fixed size `s` and is read with
`Fixed.ReadFrom`: `binary.Read` demands `s` bytes and `Fixed.ReadFrom`
returns `(0, err)` on ANY failure — in particular `read == 0` even when a
partial element consumed bytes.  Inter-element padding is consumed with
`Discard`, whose single-read path returns the bytes a byte-slice source
still has (and `io.EOF` only when it has none). -/

/-- The loop of `list.ReadFrom` in fixed-count mode (`cap > 0`, remaining
count as the first argument): returns the decoded elements (their raw
bytes), the unconsumed rest of the stream, and the error, if any.  The
element size is `sPred + 1` (a fixed record of positive size). -/
def listReadFixed (sPred a : Nat) : Nat → List Nat →
    List (List Nat) × List Nat × Option Err
  | 0, stream => ([], stream, none)
  | c + 1, stream =>
    if sPred + 1 ≤ stream.length then
      let chunk := stream.take (sPred + 1)
      let rest := stream.drop (sPred + 1)
      if c = 0 then ([chunk], rest, none)
      else
        let pad := if 1 < a then Roundup (sPred + 1) a - (sPred + 1) else 0
        if pad = 0 then
          match listReadFixed sPred a c rest with
          | (items, rest2, e) => (chunk :: items, rest2, e)
        else if rest.isEmpty then ([chunk], rest, some .eof)
        else
          match listReadFixed sPred a c (rest.drop pad) with
          | (items, rest2, e) => (chunk :: items, rest2, e)
    else if stream.length = 0 then ([], stream, some .eof)
    else ([], [], some .unexpectedEOF)

/-- The loop of `list.ReadFrom` in until-EOS mode (`cap = 0`), recursing on
a fuel bound.  The fuel only bounds the number of iterations (each
successful iteration consumes at least the element size `sPred + 1 ≥ 1`
bytes), so `fuel = stream.length` never runs out before the stream does;
the fuel-exhausted case coincides with the empty-stream case. -/
def listReadEOSAux (sPred a : Nat) : Nat → List Nat →
    List (List Nat) × List Nat × Option Err
  | 0, stream => ([], stream, none)
  | fuel + 1, stream =>
    if sPred + 1 ≤ stream.length then
      let chunk := stream.take (sPred + 1)
      let rest := stream.drop (sPred + 1)
      -- isLastItem is always false in until-EOS mode, so padding is
      -- consumed after every element
      let pad := if 1 < a then Roundup (sPred + 1) a - (sPred + 1) else 0
      if pad = 0 then
        match listReadEOSAux sPred a fuel rest with
        | (items, rest2, e) => (chunk :: items, rest2, e)
      else if rest.isEmpty then
        -- Discard returns (0, io.EOF); read == 0, so the loop breaks as
        -- the success termination condition
        ([chunk], rest, none)
      else
        match listReadEOSAux sPred a fuel (rest.drop pad) with
        | (items, rest2, e) => (chunk :: items, rest2, e)
    else if stream.length = 0 then
      -- clean end-of-stream at an element boundary: success
      ([], stream, none)
    else
      -- PARTIAL element: binary.Read consumes the remaining bytes and
      -- fails with io.ErrUnexpectedEOF, but Fixed.ReadFrom reports
      -- read == 0, so the `err == io.EOF || read == 0` break treats it as
      -- success as well
      ([], [], none)

/-- `list.ReadFrom` in until-EOS mode (`cap = 0`). -/
def listReadEOS (sPred a : Nat) (stream : List Nat) :
    List (List Nat) × List Nat × Option Err :=
  listReadEOSAux sPred a stream.length stream

/-- **C7 (list stream decode), divergence exhibit.**  In until-EOS mode an
end-of-stream in the middle of an element is NOT a failure on the code: on
the stream `[1, 2, 3]` with element size 2 the decoder consumes all three
bytes and returns one element with no error, because `Fixed.ReadFrom`
reports `read == 0` for the partial third byte and the loop's
`err == io.EOF || read == 0` break accepts that as clean termination.  The
fixed-count half of the claim behaves as stated: scenario S5's 7-byte
encoding decodes to exactly two elements with no error and no leftover, and
a truncated element is a failure. -/
theorem list_readfrom_eos_bug :
    listReadEOS 1 0 [1, 2, 3] = ([[1, 2]], [], none)
    ∧ listReadFixed 2 4 2 [225, 225, 225, 0, 226, 226, 226]
        = ([[225, 225, 225], [226, 226, 226]], [], none)
    ∧ listReadFixed 2 4 2 [225, 225, 225, 0, 226, 226]
        = ([[225, 225, 225]], [], some .unexpectedEOF) := by
  decide

end Codec
